import Mathlib

/-!
A verification development for the zkvm Edwards backend of a curve25519
library.  The backend represents curve points as 16-word little-endian limb
buffers (8 words per coordinate), converts between that representation and an
extended-coordinate point type, and builds scalar multiplication purely from a
host-supplied point-addition primitive.

Rust panics are modelled as `Except.error (RustPanic.panicked msg)`; the
recoverable slice-length error keeps its own type `TryFromSliceError`.
The host addition primitive is an external symbol, so the algorithms that call
it are parametrised by it, and correctness theorems assume the contract the
spec states for it (it computes the curve-group sum and respects the identity).
-/

namespace Zkvm

/-- Modelled from the spec: the prime modulus of the base field, 2^255 - 19
(the field-element type is external to the backend). -/
def P25519 : ℕ := 2 ^ 255 - 19

/-- Modelled from the spec: the external field-element type, an element of the
prime field of order 2^255 - 19, consumed and produced only via little-endian
byte and limb encodings. -/
abbrev Fp : Type := ZMod P25519

instance : NeZero P25519 := ⟨by norm_num [P25519]⟩

/-- Little-endian byte `j` of the natural number `v`. -/
def byteAt (v j : ℕ) : ℕ := v / 2 ^ (8 * j) % 2 ^ 8

/-- Modelled from the spec: `FieldElement::to_bytes` (external), the canonical
32-byte little-endian encoding of the field element's representative in
`[0, p)`. -/
def fieldToBytes (a : Fp) : List ℕ := (List.range 32).map (byteAt a.val)

/-- The value of a little-endian byte string. -/
def bytesToNatLE (bs : List ℕ) : ℕ := bs.foldr (fun b acc => b + 2 ^ 8 * acc) 0

/-- Modelled from the spec: `FieldElement::from_bytes` (external) decodes a
little-endian byte string and performs the necessary modular reduction. -/
def fieldFromBytes (bs : List ℕ) : Fp := (bytesToNatLE bs : ℕ)

/-- `u32::from_le_bytes` applied to a 4-byte chunk (src edwards.rs packs limbs
this way). -/
def u32FromLEBytes (bs : List ℕ) : ℕ :=
  bs.getD 0 0 + 2 ^ 8 * bs.getD 1 0 + 2 ^ 16 * bs.getD 2 0 + 2 ^ 24 * bs.getD 3 0

/-- `u32::to_le_bytes` of one limb (src field.rs serialises limbs this way). -/
def u32ToLEBytes (l : ℕ) : List ℕ :=
  [l % 2 ^ 8, l / 2 ^ 8 % 2 ^ 8, l / 2 ^ 16 % 2 ^ 8, l / 2 ^ 24 % 2 ^ 8]

/-- Source field.rs: `struct FieldElemetLimbs32(pub [u32; 8])` — a field
element as eight 32-bit words, radix 2^32, little-endian. -/
abbrev FieldElemetLimbs32 : Type := { l : List ℕ // l.length = 8 }

/-- Source field.rs: `TryFromSliceError`, the typed recoverable error of the
slice conversion. -/
inductive TryFromSliceError where
  | lengthMismatch
deriving DecidableEq

/-- Source field.rs: `impl TryFrom<&[u32]> for FieldElemetLimbs32` — succeeds
exactly on slices of length 8, copying the words unchanged. -/
def tryFromSlice (value : List ℕ) : Except TryFromSliceError FieldElemetLimbs32 :=
  if h : value.length = 8 then .ok ⟨value, h⟩ else .error .lengthMismatch

/-- Source field.rs: `impl From<FieldElemetLimbs32> for FieldElement` — each
limb is serialised to its four little-endian bytes and the 32-byte buffer is
decoded by the field type. -/
def fieldFromLimbs (ls : FieldElemetLimbs32) : Fp :=
  fieldFromBytes ((ls.val.map u32ToLEBytes).flatten)

/-- Source edwards.rs: the 4-byte chunking of a coordinate's byte encoding
into eight `u32` limbs (`to_bytes().chunks_exact(4)` + `u32::from_le_bytes`). -/
def fieldToLimbs (a : Fp) : List ℕ :=
  (List.range 8).map fun i => u32FromLEBytes (((fieldToBytes a).drop (4 * i)).take 4)

/-- Source edwards.rs: `AffinePoint { limbs: [u32; 16] }` — x-limbs in words
0–7, y-limbs in words 8–15. -/
abbrev AffinePoint : Type := { l : List ℕ // l.length = 16 }

/-- Source edwards.rs: `AffinePoint::x`, the first eight words. -/
def AffinePoint.x (a : AffinePoint) : FieldElemetLimbs32 :=
  ⟨a.val.take 8, by simp [a.prop]⟩

/-- Source edwards.rs: `AffinePoint::y`, the last eight words. -/
def AffinePoint.y (a : AffinePoint) : FieldElemetLimbs32 :=
  ⟨a.val.drop 8, by simp [a.prop]⟩

/-- Modelled from the spec: the external extended-coordinate point type, four
field elements (X, Y, Z, T). -/
@[ext]
structure EdwardsPoint where
  X : Fp
  Y : Fp
  Z : Fp
  T : Fp
deriving DecidableEq

/-- A Rust panic: a fatal, non-recoverable failure, recorded as an explicit
error value of the embedding (distinct from the recoverable
`TryFromSliceError`). -/
inductive RustPanic where
  | panicked (msg : String)
deriving DecidableEq

deriving instance DecidableEq for Except

/-- Source constants.rs: the `IDENTITY` affine constant, x = 0 and y = 1. -/
def IDENTITY : AffinePoint :=
  ⟨[0, 0, 0, 0, 0, 0, 0, 0, 1, 0, 0, 0, 0, 0, 0, 0], rfl⟩

/-- Source edwards.rs: `impl Identity for AffinePoint` returns
`constants::IDENTITY`. -/
def AffinePoint.identity : AffinePoint := IDENTITY

/-- The packing half of `impl From<EdwardsPoint> for AffinePoint`
(src edwards.rs): both coordinates' byte encodings chunked into the 16-word
buffer. -/
def affOf (e : EdwardsPoint) : AffinePoint :=
  ⟨fieldToLimbs e.X ++ fieldToLimbs e.Y, by simp [fieldToLimbs]⟩

/-- Source edwards.rs: `impl From<EdwardsPoint> for AffinePoint`.  The
`assert_eq!(value.Z, FieldElement::one())` panic is modelled as the error
case. -/
def toAffine (e : EdwardsPoint) : Except RustPanic AffinePoint :=
  if e.Z = 1 then .ok (affOf e)
  else .error (.panicked "assertion failed: value.Z equals the multiplicative identity")

/-- Source edwards.rs: `impl From<AffinePoint> for EdwardsPoint` — decode the
two limb codecs, set Z to one and T to X*Y. -/
def toExtended (a : AffinePoint) : EdwardsPoint :=
  { X := fieldFromLimbs (AffinePoint.x a)
    Y := fieldFromLimbs (AffinePoint.y a)
    Z := 1
    T := fieldFromLimbs (AffinePoint.x a) * fieldFromLimbs (AffinePoint.y a) }

/-- Source edwards.rs: `normalize` — multiply X, Y, T by the inverse of Z and
set Z to one.  The external `FieldElement::invert` is modelled as the field
inverse. -/
def normalize (p : EdwardsPoint) : EdwardsPoint :=
  { X := p.X * p.Z⁻¹, Y := p.Y * p.Z⁻¹, Z := 1, T := p.T * p.Z⁻¹ }

/-- Modelled from the spec: the identity of the extended-point group, the
affine point (0, 1) in extended coordinates. -/
def edIdentity : EdwardsPoint := { X := 0, Y := 1, Z := 1, T := 0 }

/-- Modelled from the spec: `Scalar::bits` (external) — the 256-entry,
least-significant-first bit view of a scalar's 32-byte value. -/
def scalarBits (s : ℕ) : List ℕ := (List.range 256).map fun i => s / 2 ^ i % 2

/-- The conditional accumulation `if bit == 1 { res += q }` of the scalar-mul
loops, with `hadd` the host addition primitive `syscall_ed_add`. -/
def condAdd (hadd : AffinePoint → AffinePoint → AffinePoint) (bit : ℕ)
    (res q : AffinePoint) : AffinePoint :=
  if bit = 1 then hadd res q else res

/-- One iteration of `double_and_add` (src variable_base.rs): conditionally
accumulate, then double the running value by adding it to itself. -/
def dStep (hadd : AffinePoint → AffinePoint → AffinePoint)
    (st : AffinePoint × AffinePoint) (bit : ℕ) : AffinePoint × AffinePoint :=
  (condAdd hadd bit st.1 st.2, hadd st.2 st.2)

/-- Source variable_base.rs: `double_and_add` — least-significant-bit-first
scan of the scalar, accumulator initialised to the identity. -/
def double_and_add (hadd : AffinePoint → AffinePoint → AffinePoint)
    (point : AffinePoint) (scalar : ℕ) : AffinePoint :=
  ((scalarBits scalar).foldl (dStep hadd) (AffinePoint.identity, point)).1

/-- Source variable_base.rs: `mul` — convert to affine (panics when Z is not
one), run double-and-add, convert back. -/
def variableBaseMul (hadd : AffinePoint → AffinePoint → AffinePoint)
    (point : EdwardsPoint) (scalar : ℕ) : Except RustPanic EdwardsPoint :=
  (toAffine point).map fun a => toExtended (double_and_add hadd a scalar)

/-- Modelled from the spec: `ED25519_BASEPOINT_POINT` (external constant), the
fixed well-known generator, already normalised and with T = X*Y. -/
def ED25519_BASEPOINT_POINT : EdwardsPoint :=
  { X := (15112221349535400772501151409588531511454012693041857206046113283949847762202 : Fp)
    Y := (46316835694926478169428394003475163141307993866256225615783033603165251855960 : Fp)
    Z := 1
    T := (15112221349535400772501151409588531511454012693041857206046113283949847762202 : Fp) *
      (46316835694926478169428394003475163141307993866256225615783033603165251855960 : Fp) }

/-- One iteration of `double_and_add_base` (src vartime_double_base.rs):
conditionally accumulate the A-side then the B-side running value, then double
both running values. -/
def dbStep (hadd : AffinePoint → AffinePoint → AffinePoint)
    (st : AffinePoint × AffinePoint × AffinePoint) (bits : ℕ × ℕ) :
    AffinePoint × AffinePoint × AffinePoint :=
  (condAdd hadd bits.2 (condAdd hadd bits.1 st.1 st.2.1) st.2.2,
    hadd st.2.1 st.2.1, hadd st.2.2 st.2.2)

/-- Source vartime_double_base.rs: `double_and_add_base` — lock-step scan of
the zipped bit sequences of the two scalars. -/
def double_and_add_base (hadd : AffinePoint → AffinePoint → AffinePoint)
    (a : ℕ) (A : AffinePoint) (b : ℕ) : AffinePoint :=
  (((scalarBits a).zip (scalarBits b)).foldl (dbStep hadd)
    (AffinePoint.identity, A, affOf ED25519_BASEPOINT_POINT)).1

/-- Source vartime_double_base.rs: `mul` — compute aA + bB with B the Ed25519
basepoint. -/
def vartimeDoubleBaseMul (hadd : AffinePoint → AffinePoint → AffinePoint)
    (a : ℕ) (A : EdwardsPoint) (b : ℕ) : Except RustPanic EdwardsPoint :=
  (toAffine A).map fun Aaff => toExtended (double_and_add_base hadd a Aaff b)

/-- Source pippenger.rs: `Pippenger::optional_multiscalar_mul` — the body is
the `unimplemented` macro invocation, an unconditional Rust panic. -/
def optional_multiscalar_mul (_scalars : List ℕ)
    (_points : List (Option EdwardsPoint)) : Except RustPanic (Option EdwardsPoint) :=
  .error (.panicked "Pippenger is not supported yet for zkvm")

/-- Stated from the spec's words, for the refinement claims: a reference
scalar multiplication is the scalar action on the abstract curve group. -/
def referenceScalarMul {G : Type} [AddCommMonoid G] (s : ℕ) (x : G) : G := s • x

/-- The value of a bit sequence, least-significant bit first, reading any
entry other than 1 as 0 exactly as the loops do. -/
def bitsVal (bs : List ℕ) : ℕ :=
  bs.foldr (fun b acc => (if b = 1 then 1 else 0) + 2 * acc) 0

/-- The value of a limb sequence in radix 2^32, little-endian. -/
def limbsVal (ls : List ℕ) : ℕ :=
  ls.foldr (fun l acc => l % 2 ^ 32 + 2 ^ 32 * acc) 0

/-- The correctness contract the spec states for the host addition primitive:
relative to an abstract model of the curve group (an additive commutative
monoid), an abstraction map and a validity (on-curve) predicate, the
primitive computes the group sum of valid points, and the identity constant
behaves as the neutral element at the limb level. -/
structure HostAddContract {G : Type} [AddCommMonoid G] (phi : AffinePoint → G)
    (V : AffinePoint → Prop) (hadd : AffinePoint → AffinePoint → AffinePoint) : Prop where
  vId : V AffinePoint.identity
  phiId : phi AffinePoint.identity = 0
  vAdd : ∀ p q, V p → V q → V (hadd p q)
  phiAdd : ∀ p q, V p → V q → phi (hadd p q) = phi p + phi q
  idAddLeft : ∀ p, V p → hadd AffinePoint.identity p = p
  idAddRight : ∀ p, V p → hadd p AffinePoint.identity = p

/-- A trivial abstract model of the curve group (used to exhibit
satisfiability of the host contract): everything maps to 0. -/
def trivPhi : AffinePoint → ℕ := fun _ => 0

/-- The trivially true validity predicate. -/
def trivV : AffinePoint → Prop := fun _ => True

/-- A concrete host addition satisfying the contract for the trivial model:
the identity constant behaves neutrally on both sides. -/
def haddW : AffinePoint → AffinePoint → AffinePoint := fun p q =>
  if p = AffinePoint.identity then q else if q = AffinePoint.identity then p else p

/-- An affine buffer whose x-limbs encode the prime modulus itself — a
non-canonical encoding of the field element 0. -/
def Qbad : AffinePoint :=
  ⟨[4294967277, 4294967295, 4294967295, 4294967295, 4294967295, 4294967295, 4294967295,
    2147483647, 1, 0, 0, 0, 0, 0, 0, 0], rfl⟩

/-- Trivial projection of the limb accessor. -/
theorem AffinePoint.x_val (a : AffinePoint) : (AffinePoint.x a).val = a.val.take 8 := rfl

/-- Trivial projection of the limb accessor. -/
theorem AffinePoint.y_val (a : AffinePoint) : (AffinePoint.y a).val = a.val.drop 8 := rfl

/-- Serialising one limb to four bytes and prepending to a byte string adds
the limb's value modulo 2^32 at the bottom. -/
theorem bytesToNatLE_u32_append (l : ℕ) (rest : List ℕ) :
    bytesToNatLE (u32ToLEBytes l ++ rest) = l % 2 ^ 32 + 2 ^ 32 * bytesToNatLE rest := by
  simp only [bytesToNatLE, u32ToLEBytes, List.cons_append, List.nil_append, List.foldr_cons]
  omega

/-- Decoding the concatenation of the limbs' little-endian bytes gives the
radix-2^32 value of the limb list. -/
theorem bytesToNatLE_flatten (ls : List ℕ) :
    bytesToNatLE ((ls.map u32ToLEBytes).flatten) = limbsVal ls := by
  induction ls with
  | nil => rfl
  | cons l rest ih =>
    simp only [List.map_cons, List.flatten_cons]
    rw [bytesToNatLE_u32_append, ih]
    rfl

/-- The limb-codec decode is the cast of the radix-2^32 value. -/
theorem fieldFromLimbs_eq (ls : FieldElemetLimbs32) :
    fieldFromLimbs ls = ((limbsVal ls.val : ℕ) : Fp) := by
  unfold fieldFromLimbs fieldFromBytes
  rw [bytesToNatLE_flatten]

/-- Chunking four consecutive bytes of the little-endian byte expansion into a
word reads off one radix-2^32 digit. -/
theorem u32chunk_eq (v i : ℕ) (hi : i < 8) :
    u32FromLEBytes ((((List.range 32).map (byteAt v)).drop (4 * i)).take 4) =
      v / 2 ^ (32 * i) % 2 ^ 32 := by
  have hget : ∀ k, k < 4 →
      ((((List.range 32).map (byteAt v)).drop (4 * i)).take 4).getD k 0 = byteAt v (4 * i + k) := by
    intro k hk
    rw [List.getD_eq_getElem?_getD, List.getElem?_take_of_lt hk, List.getElem?_drop,
      List.getElem?_map, List.getElem?_range (by omega)]
    rfl
  unfold u32FromLEBytes
  rw [hget 0 (by omega), hget 1 (by omega), hget 2 (by omega), hget 3 (by omega)]
  have hb : ∀ k, byteAt v (4 * i + k) = v / 2 ^ (32 * i) / 2 ^ (8 * k) % 2 ^ 8 := by
    intro k
    unfold byteAt
    rw [Nat.div_div_eq_div_mul, ← pow_add]
    congr 2
    ring
  rw [hb 0, hb 1, hb 2, hb 3]
  generalize v / 2 ^ (32 * i) = w
  norm_num
  omega

/-- The limb encoding of a field element is the list of radix-2^32 digits of
its canonical value. -/
theorem fieldToLimbs_eq (a : Fp) :
    fieldToLimbs a = (List.range 8).map fun i => a.val / 2 ^ (32 * i) % 2 ^ 32 := by
  unfold fieldToLimbs fieldToBytes
  refine List.map_congr_left ?_
  intro i hi
  exact u32chunk_eq a.val i (List.mem_range.mp hi)

/-- The limb encoder produces eight limbs. -/
theorem fieldToLimbs_length (a : Fp) : (fieldToLimbs a).length = 8 := by
  simp [fieldToLimbs]

/-- The radix-2^32 value of the first n digits of v is v modulo 2^(32n). -/
theorem limbsVal_digits (n : ℕ) : ∀ v : ℕ,
    limbsVal ((List.range n).map fun i => v / 2 ^ (32 * i) % 2 ^ 32) = v % 2 ^ (32 * n) := by
  induction n with
  | zero => intro v; simp [limbsVal, Nat.mod_one]
  | succ n ih =>
    intro v
    rw [List.range_succ_eq_map, List.map_cons, List.map_map]
    have h1 : ((fun i => v / 2 ^ (32 * i) % 2 ^ 32) ∘ Nat.succ) =
        fun i => v / 2 ^ 32 / 2 ^ (32 * i) % 2 ^ 32 := by
      funext i
      show v / 2 ^ (32 * (i + 1)) % 2 ^ 32 = v / 2 ^ 32 / 2 ^ (32 * i) % 2 ^ 32
      rw [Nat.div_div_eq_div_mul, ← pow_add,
        show 32 + 32 * i = 32 * (i + 1) from by ring]
    have hcons : ∀ (x : ℕ) (l : List ℕ),
        limbsVal (x :: l) = x % 2 ^ 32 + 2 ^ 32 * limbsVal l := fun _ _ => rfl
    rw [hcons, h1, ih (v / 2 ^ 32)]
    have h2 : (2 : ℕ) ^ (32 * (n + 1)) = 2 ^ 32 * 2 ^ (32 * n) := by
      rw [← pow_add]
      congr 1
      ring
    rw [h2, Nat.mod_mul]
    norm_num

/-- Encoding a field element to limbs preserves its canonical value. -/
theorem limbsVal_fieldToLimbs (a : Fp) : limbsVal (fieldToLimbs a) = a.val := by
  rw [fieldToLimbs_eq, limbsVal_digits]
  exact Nat.mod_eq_of_lt (lt_of_lt_of_le (ZMod.val_lt a) (by norm_num [P25519]))

/-- A list of words below 2^32 is recovered from the digits of its
radix-2^32 value. -/
theorem digits_of_limbsVal : ∀ l : List ℕ, (∀ x ∈ l, x < 2 ^ 32) →
    ((List.range l.length).map fun i => limbsVal l / 2 ^ (32 * i) % 2 ^ 32) = l := by
  intro l
  induction l with
  | nil => simp
  | cons x t ih =>
    intro hb
    have hx : x < 2 ^ 32 := hb x (by simp)
    have hcons : limbsVal (x :: t) = x % 2 ^ 32 + 2 ^ 32 * limbsVal t := rfl
    rw [List.length_cons, List.range_succ_eq_map, List.map_cons, List.map_map]
    have htail : ((fun i => limbsVal (x :: t) / 2 ^ (32 * i) % 2 ^ 32) ∘ Nat.succ) =
        fun i => limbsVal t / 2 ^ (32 * i) % 2 ^ 32 := by
      funext i
      show limbsVal (x :: t) / 2 ^ (32 * (i + 1)) % 2 ^ 32 = limbsVal t / 2 ^ (32 * i) % 2 ^ 32
      have h2 : (2 : ℕ) ^ (32 * (i + 1)) = 2 ^ 32 * 2 ^ (32 * i) := by
        rw [← pow_add]
        congr 1
        ring
      rw [hcons, h2, ← Nat.div_div_eq_div_mul]
      have hdiv : (x % 2 ^ 32 + 2 ^ 32 * limbsVal t) / 2 ^ 32 = limbsVal t := by omega
      rw [hdiv]
    rw [htail, ih fun y hy => hb y (by simp [hy])]
    have hhead : limbsVal (x :: t) / 2 ^ (32 * 0) % 2 ^ 32 = x := by
      rw [hcons]
      norm_num
      omega
    rw [hhead]


/-- The x-limbs of a packed point are the x-coordinate's limb encoding. -/
theorem affOf_x (e : EdwardsPoint) : (AffinePoint.x (affOf e)).val = fieldToLimbs e.X := by
  rw [AffinePoint.x_val]
  show (fieldToLimbs e.X ++ fieldToLimbs e.Y).take 8 = fieldToLimbs e.X
  exact List.take_left' (fieldToLimbs_length e.X)

/-- The y-limbs of a packed point are the y-coordinate's limb encoding. -/
theorem affOf_y (e : EdwardsPoint) : (AffinePoint.y (affOf e)).val = fieldToLimbs e.Y := by
  rw [AffinePoint.y_val]
  show (fieldToLimbs e.X ++ fieldToLimbs e.Y).drop 8 = fieldToLimbs e.Y
  exact List.drop_left' (fieldToLimbs_length e.X)

/-- Decoding the packed x-limbs recovers the x-coordinate. -/
theorem decode_affOf_x (e : EdwardsPoint) :
    fieldFromLimbs (AffinePoint.x (affOf e)) = e.X := by
  rw [fieldFromLimbs_eq, affOf_x, limbsVal_fieldToLimbs]
  exact ZMod.natCast_rightInverse e.X

/-- Decoding the packed y-limbs recovers the y-coordinate. -/
theorem decode_affOf_y (e : EdwardsPoint) :
    fieldFromLimbs (AffinePoint.y (affOf e)) = e.Y := by
  rw [fieldFromLimbs_eq, affOf_y, limbsVal_fieldToLimbs]
  exact ZMod.natCast_rightInverse e.Y

/-- Round trip through the affine representation is the identity on
normalized extended points satisfying the extended-coordinate relation. -/
theorem toExtended_affOf (e : EdwardsPoint) (hZ : e.Z = 1)
    (hrel : e.X * e.Y = e.Z * e.T) : toExtended (affOf e) = e := by
  ext
  · exact decode_affOf_x e
  · exact decode_affOf_y e
  · exact hZ.symm
  · show fieldFromLimbs (AffinePoint.x (affOf e)) * fieldFromLimbs (AffinePoint.y (affOf e)) = e.T
    rw [decode_affOf_x, decode_affOf_y, hrel, hZ, one_mul]

/-- Round trip through the extended representation is the identity on affine
buffers whose words fit in 32 bits and whose coordinate values are already
reduced. -/
theorem affOf_toExtended (Q : AffinePoint) (hw : ∀ x ∈ Q.val, x < 2 ^ 32)
    (hx : limbsVal (Q.val.take 8) < P25519) (hy : limbsVal (Q.val.drop 8) < P25519) :
    affOf (toExtended Q) = Q := by
  have hlx : (Q.val.take 8).length = 8 := by simp [Q.prop]
  have hly : (Q.val.drop 8).length = 8 := by simp [Q.prop]
  have hxval : (fieldFromLimbs (AffinePoint.x Q)).val = limbsVal (Q.val.take 8) := by
    rw [fieldFromLimbs_eq, AffinePoint.x_val, ZMod.val_natCast]
    exact Nat.mod_eq_of_lt hx
  have hyval : (fieldFromLimbs (AffinePoint.y Q)).val = limbsVal (Q.val.drop 8) := by
    rw [fieldFromLimbs_eq, AffinePoint.y_val, ZMod.val_natCast]
    exact Nat.mod_eq_of_lt hy
  have hdig : ∀ (l : List ℕ), l.length = 8 → (∀ x ∈ l, x < 2 ^ 32) →
      ((List.range 8).map fun i => limbsVal l / 2 ^ (32 * i) % 2 ^ 32) = l := by
    intro l hn hwl
    rw [← hn]
    exact digits_of_limbsVal l hwl
  have htake : fieldToLimbs (fieldFromLimbs (AffinePoint.x Q)) = Q.val.take 8 := by
    rw [fieldToLimbs_eq, hxval]
    exact hdig _ hlx fun z hz => hw z (List.take_subset 8 Q.val hz)
  have hdrop : fieldToLimbs (fieldFromLimbs (AffinePoint.y Q)) = Q.val.drop 8 := by
    rw [fieldToLimbs_eq, hyval]
    exact hdig _ hly fun z hz => hw z (List.drop_subset 8 Q.val hz)
  apply Subtype.ext
  show fieldToLimbs (fieldFromLimbs (AffinePoint.x Q)) ++
      fieldToLimbs (fieldFromLimbs (AffinePoint.y Q)) = Q.val
  rw [htake, hdrop, List.take_append_drop]

/-- Packing the extended identity gives the identity constant. -/
theorem affOf_edIdentity : affOf edIdentity = IDENTITY := by decide

/-- Unpacking the identity constant gives the extended identity. -/
theorem toExtended_IDENTITY : toExtended IDENTITY = edIdentity := by decide

/-- The bit view always has exactly 256 entries. -/
theorem scalarBits_length (s : ℕ) : (scalarBits s).length = 256 := by
  simp [scalarBits]

/-- The bit view of 0 contains no set bit. -/
theorem scalarBits_zero_ne_one : ∀ b ∈ scalarBits 0, b ≠ 1 := by
  intro b hb
  simp only [scalarBits, List.mem_map, List.mem_range] at hb
  obtain ⟨i, _, hi⟩ := hb
  simp only [Nat.zero_div, Nat.zero_mod] at hi
  omega

set_option maxRecDepth 10000 in
/-- The bit view of 1 is a set bit followed by 255 clear bits. -/
theorem scalarBits_one : scalarBits 1 = 1 :: List.replicate 255 0 := by decide

/-- The value of the first n bits of s, least significant first. -/
theorem bitsVal_rangeBits (n : ℕ) : ∀ s : ℕ,
    bitsVal ((List.range n).map fun i => s / 2 ^ i % 2) = s % 2 ^ n := by
  induction n with
  | zero => intro s; simp [bitsVal, Nat.mod_one]
  | succ n ih =>
    intro s
    rw [List.range_succ_eq_map, List.map_cons, List.map_map]
    have h1 : ((fun i => s / 2 ^ i % 2) ∘ Nat.succ) = fun i => s / 2 / 2 ^ i % 2 := by
      funext i
      show s / 2 ^ (i + 1) % 2 = s / 2 / 2 ^ i % 2
      rw [Nat.div_div_eq_div_mul, ← pow_succ']
    have hcons : ∀ (b : ℕ) (l : List ℕ),
        bitsVal (b :: l) = (if b = 1 then 1 else 0) + 2 * bitsVal l := fun _ _ => rfl
    rw [hcons, h1, ih (s / 2)]
    have h2 : (2 : ℕ) ^ (n + 1) = 2 * 2 ^ n := pow_succ' 2 n
    rw [h2, Nat.mod_mul]
    have hd : s / 2 ^ 0 = s := by norm_num
    rw [hd]
    rcases Nat.mod_two_eq_zero_or_one s with h | h <;> rw [h] <;> norm_num

/-- The value of the full bit view of a scalar below 2^256 is the scalar. -/
theorem bitsVal_scalarBits (s : ℕ) (hs : s < 2 ^ 256) :
    bitsVal (scalarBits s) = s := by
  rw [scalarBits, bitsVal_rangeBits]
  exact Nat.mod_eq_of_lt hs

section HostLoop

variable {G : Type} [AddCommMonoid G] {phi : AffinePoint → G} {V : AffinePoint → Prop}
variable {hadd : AffinePoint → AffinePoint → AffinePoint}

/-- Unfolding equation of `bitsVal`. -/
theorem bitsVal_cons (b : ℕ) (l : List ℕ) :
    bitsVal (b :: l) = (if b = 1 then 1 else 0) + 2 * bitsVal l := rfl

/-- Conditional accumulation preserves validity and adds the bit's multiple of
the accumulated point in the abstract group. -/
theorem condAdd_spec (hc : HostAddContract phi V hadd) (bit : ℕ) (r q : AffinePoint)
    (hr : V r) (hq : V q) :
    V (condAdd hadd bit r q) ∧
      phi (condAdd hadd bit r q) = phi r + (if bit = 1 then 1 else 0) • phi q := by
  by_cases hb : bit = 1
  · refine ⟨by simpa [condAdd, hb] using hc.vAdd _ _ hr hq, ?_⟩
    simp [condAdd, hb, hc.phiAdd _ _ hr hq]
  · refine ⟨by simpa [condAdd, hb] using hr, ?_⟩
    simp [condAdd, hb]

/-- Invariant of the single-base double-and-add loop: the accumulator gains
the bit-sequence value times the running point. -/
theorem dLoop_spec (hc : HostAddContract phi V hadd) :
    ∀ (bs : List ℕ) (res temp : AffinePoint), V res → V temp →
      V ((bs.foldl (dStep hadd) (res, temp)).1) ∧
        phi ((bs.foldl (dStep hadd) (res, temp)).1) = phi res + bitsVal bs • phi temp := by
  intro bs
  induction bs with
  | nil =>
    intro res temp hres _
    refine ⟨hres, ?_⟩
    simp [bitsVal]
  | cons b rest ih =>
    intro res temp hres htemp
    rw [List.foldl_cons]
    obtain ⟨hV1, hphi1⟩ := condAdd_spec hc b res temp hres htemp
    have htemp2 : V (hadd temp temp) := hc.vAdd _ _ htemp htemp
    obtain ⟨hV2, hphi2⟩ := ih (condAdd hadd b res temp) (hadd temp temp) hV1 htemp2
    refine ⟨hV2, ?_⟩
    rw [show dStep hadd (res, temp) b = (condAdd hadd b res temp, hadd temp temp) from rfl]
    rw [hphi2, hphi1, hc.phiAdd temp temp htemp htemp, bitsVal_cons]
    rw [smul_add, add_smul, mul_smul, two_smul]
    abel

/-- With both state components equal to the identity constant, the loop is
stationary. -/
theorem dLoop_id (hc : HostAddContract phi V hadd) :
    ∀ bs : List ℕ, bs.foldl (dStep hadd) (AffinePoint.identity, AffinePoint.identity) =
      (AffinePoint.identity, AffinePoint.identity) := by
  intro bs
  induction bs with
  | nil => rfl
  | cons b rest ih =>
    rw [List.foldl_cons]
    have hid : hadd AffinePoint.identity AffinePoint.identity = AffinePoint.identity :=
      hc.idAddLeft _ hc.vId
    have hstep : dStep hadd (AffinePoint.identity, AffinePoint.identity) b =
        (AffinePoint.identity, AffinePoint.identity) := by
      unfold dStep condAdd
      rw [hid]
      simp
    rw [hstep, ih]

/-- When no bit is set the accumulator never changes. -/
theorem dLoop_res_of_no_set_bit (hadd : AffinePoint → AffinePoint → AffinePoint) :
    ∀ (bs : List ℕ) (res temp : AffinePoint), (∀ b ∈ bs, b ≠ 1) →
      (bs.foldl (dStep hadd) (res, temp)).1 = res := by
  intro bs
  induction bs with
  | nil => intro res temp _; rfl
  | cons b rest ih =>
    intro res temp hb
    rw [List.foldl_cons]
    have h1 : dStep hadd (res, temp) b = (res, hadd temp temp) := by
      unfold dStep condAdd
      rw [if_neg (hb b (by simp))]
    rw [h1]
    exact ih res (hadd temp temp) fun y hy => hb y (by simp [hy])

/-- Invariant of the double-base lock-step loop: the accumulator gains both
bit-sequence values times the respective running points. -/
theorem dbLoop_spec (hc : HostAddContract phi V hadd) :
    ∀ (ps : List (ℕ × ℕ)) (res tA tB : AffinePoint), V res → V tA → V tB →
      V ((ps.foldl (dbStep hadd) (res, tA, tB)).1) ∧
        phi ((ps.foldl (dbStep hadd) (res, tA, tB)).1) =
          phi res + bitsVal (ps.map Prod.fst) • phi tA +
            bitsVal (ps.map Prod.snd) • phi tB := by
  intro ps
  induction ps with
  | nil =>
    intro res tA tB hres _ _
    refine ⟨hres, ?_⟩
    simp [bitsVal]
  | cons p rest ih =>
    intro res tA tB hres htA htB
    rw [List.foldl_cons]
    obtain ⟨hV1, hphi1⟩ := condAdd_spec hc p.1 res tA hres htA
    obtain ⟨hV2, hphi2⟩ := condAdd_spec hc p.2 (condAdd hadd p.1 res tA) tB hV1 htB
    have htA2 : V (hadd tA tA) := hc.vAdd _ _ htA htA
    have htB2 : V (hadd tB tB) := hc.vAdd _ _ htB htB
    obtain ⟨hV3, hphi3⟩ := ih (condAdd hadd p.2 (condAdd hadd p.1 res tA) tB)
      (hadd tA tA) (hadd tB tB) hV2 htA2 htB2
    refine ⟨hV3, ?_⟩
    rw [show dbStep hadd (res, tA, tB) p =
        (condAdd hadd p.2 (condAdd hadd p.1 res tA) tB, hadd tA tA, hadd tB tB) from rfl]
    rw [hphi3, hphi2, hphi1, hc.phiAdd tA tA htA htA, hc.phiAdd tB tB htB htB]
    rw [show (p :: rest).map Prod.fst = p.1 :: rest.map Prod.fst from rfl,
      show (p :: rest).map Prod.snd = p.2 :: rest.map Prod.snd from rfl,
      bitsVal_cons, bitsVal_cons]
    rw [smul_add, smul_add, add_smul, add_smul, mul_smul, mul_smul, two_smul, two_smul]
    abel

end HostLoop

/-- C1: for every normalized on-curve extended point P and scalar s below
2^256, single-base `mul` (affine conversion, LSB-first double-and-add through
the host primitive, conversion back) refines the reference scalar
multiplication in the abstract curve group, and in particular
mul(identity, s) = identity, mul(P, 0) = identity, and mul(P, 1) = P. -/
theorem variable_base_mul_correct {G : Type} [AddCommMonoid G]
    (phi : AffinePoint → G) (V : AffinePoint → Prop)
    (hadd : AffinePoint → AffinePoint → AffinePoint)
    (hc : HostAddContract phi V hadd)
    (P : EdwardsPoint) (s : ℕ)
    (hZ : P.Z = 1) (hrel : P.X * P.Y = P.Z * P.T)
    (hV : V (affOf P)) (hs : s < 2 ^ 256) :
    (∃ A : AffinePoint,
        variableBaseMul hadd P s = Except.ok (toExtended A) ∧
        phi A = referenceScalarMul s (phi (affOf P))) ∧
    variableBaseMul hadd edIdentity s = Except.ok edIdentity ∧
    variableBaseMul hadd P 0 = Except.ok edIdentity ∧
    variableBaseMul hadd P 1 = Except.ok P := by
  have hAff : toAffine P = Except.ok (affOf P) := by
    unfold toAffine
    rw [if_pos hZ]
  have hmul : ∀ t : ℕ, variableBaseMul hadd P t =
      Except.ok (toExtended (double_and_add hadd (affOf P) t)) := by
    intro t
    rw [variableBaseMul, hAff]
    rfl
  refine ⟨⟨double_and_add hadd (affOf P) s, hmul s, ?_⟩, ?_, ?_, ?_⟩
  · have h := (dLoop_spec hc (scalarBits s) AffinePoint.identity (affOf P) hc.vId hV).2
    show phi (((scalarBits s).foldl (dStep hadd) (AffinePoint.identity, affOf P)).1) = _
    rw [h, hc.phiId, zero_add, bitsVal_scalarBits s hs]
    rfl
  · have hIdAff : toAffine edIdentity = Except.ok (affOf edIdentity) := by decide
    rw [variableBaseMul, hIdAff]
    show Except.ok (toExtended (double_and_add hadd (affOf edIdentity) s)) = _
    rw [affOf_edIdentity]
    have hda : double_and_add hadd IDENTITY s =
        ((scalarBits s).foldl (dStep hadd) (AffinePoint.identity, AffinePoint.identity)).1 := rfl
    rw [hda, dLoop_id hc]
    exact congrArg Except.ok toExtended_IDENTITY
  · rw [hmul 0]
    have h0 : double_and_add hadd (affOf P) 0 = AffinePoint.identity := by
      show ((scalarBits 0).foldl (dStep hadd) (AffinePoint.identity, affOf P)).1 = _
      exact dLoop_res_of_no_set_bit hadd _ _ _ scalarBits_zero_ne_one
    rw [h0]
    exact congrArg Except.ok toExtended_IDENTITY
  · rw [hmul 1]
    have h1 : double_and_add hadd (affOf P) 1 = affOf P := by
      show ((scalarBits 1).foldl (dStep hadd) (AffinePoint.identity, affOf P)).1 = _
      rw [scalarBits_one, List.foldl_cons]
      have hstep : dStep hadd (AffinePoint.identity, affOf P) 1 =
          (affOf P, hadd (affOf P) (affOf P)) := by
        unfold dStep condAdd
        rw [if_pos rfl, hc.idAddLeft _ hV]
      rw [hstep]
      refine dLoop_res_of_no_set_bit hadd _ _ _ ?_
      intro b hbmem
      have := List.eq_of_mem_replicate hbmem
      omega
    rw [h1, toExtended_affOf P hZ hrel]

/-- Witness for C1 at the trivial abstract model, the identity point and the
scalars 0 and 1. -/
theorem variable_base_mul_correct_witness :
    (∃ A : AffinePoint,
        variableBaseMul haddW edIdentity 0 = Except.ok (toExtended A) ∧
        trivPhi A = referenceScalarMul 0 (trivPhi (affOf edIdentity))) ∧
    variableBaseMul haddW edIdentity 0 = Except.ok edIdentity ∧
    variableBaseMul haddW edIdentity 0 = Except.ok edIdentity ∧
    variableBaseMul haddW edIdentity 1 = Except.ok edIdentity :=
  variable_base_mul_correct trivPhi trivV haddW
    ⟨trivial, rfl, fun _ _ _ _ => trivial, fun _ _ _ _ => rfl,
      fun p _ => by simp [haddW],
      fun p _ => by by_cases h : p = AffinePoint.identity <;> simp [haddW, h]⟩
    edIdentity 0 rfl (by decide) trivial (by norm_num)

/-- C2: for every normalized on-curve extended point A and scalars a, b below
2^256, the double-base `mul` refines a·A + b·B in the abstract curve group,
with B the fixed Ed25519 basepoint. -/
theorem vartime_double_base_mul_correct {G : Type} [AddCommMonoid G]
    (phi : AffinePoint → G) (V : AffinePoint → Prop)
    (hadd : AffinePoint → AffinePoint → AffinePoint)
    (hc : HostAddContract phi V hadd)
    (hVB : V (affOf ED25519_BASEPOINT_POINT))
    (a b : ℕ) (A : EdwardsPoint)
    (hZ : A.Z = 1) (hV : V (affOf A)) (ha : a < 2 ^ 256) (hb : b < 2 ^ 256) :
    ∃ R : AffinePoint,
      vartimeDoubleBaseMul hadd a A b = Except.ok (toExtended R) ∧
      phi R = referenceScalarMul a (phi (affOf A)) +
        referenceScalarMul b (phi (affOf ED25519_BASEPOINT_POINT)) := by
  have hAff : toAffine A = Except.ok (affOf A) := by
    unfold toAffine
    rw [if_pos hZ]
  refine ⟨double_and_add_base hadd a (affOf A) b, ?_, ?_⟩
  · rw [vartimeDoubleBaseMul, hAff]
    rfl
  · have h := (dbLoop_spec hc ((scalarBits a).zip (scalarBits b)) AffinePoint.identity
      (affOf A) (affOf ED25519_BASEPOINT_POINT) hc.vId hV hVB).2
    show phi ((((scalarBits a).zip (scalarBits b)).foldl (dbStep hadd)
      (AffinePoint.identity, affOf A, affOf ED25519_BASEPOINT_POINT)).1) = _
    rw [h, hc.phiId, zero_add]
    have hfst : ((scalarBits a).zip (scalarBits b)).map Prod.fst = scalarBits a :=
      List.map_fst_zip _ _ (by simp [scalarBits_length])
    have hsnd : ((scalarBits a).zip (scalarBits b)).map Prod.snd = scalarBits b :=
      List.map_snd_zip _ _ (by simp [scalarBits_length])
    rw [hfst, hsnd, bitsVal_scalarBits a ha, bitsVal_scalarBits b hb]
    rfl

/-- Witness for C2 at the trivial abstract model. -/
theorem vartime_double_base_mul_correct_witness :
    ∃ R : AffinePoint,
      vartimeDoubleBaseMul haddW 0 edIdentity 0 = Except.ok (toExtended R) ∧
      trivPhi R = referenceScalarMul 0 (trivPhi (affOf edIdentity)) +
        referenceScalarMul 0 (trivPhi (affOf ED25519_BASEPOINT_POINT)) :=
  vartime_double_base_mul_correct trivPhi trivV haddW
    ⟨trivial, rfl, fun _ _ _ _ => trivial, fun _ _ _ _ => rfl,
      fun p _ => by simp [haddW],
      fun p _ => by by_cases h : p = AffinePoint.identity <;> simp [haddW, h]⟩
    trivial 0 0 edIdentity rfl trivial (by norm_num) (by norm_num)

/-- C3 (amended): the conversions are mutually inverse — for normalized
extended points satisfying the extended-coordinate relation, and for affine
buffers of 32-bit words whose coordinate values are canonically reduced. -/
theorem conversions_round_trip (P : EdwardsPoint) (hZ : P.Z = 1)
    (hrel : P.X * P.Y = P.Z * P.T) (Q : AffinePoint)
    (hw : ∀ x ∈ Q.val, x < 2 ^ 32)
    (hx : limbsVal (Q.val.take 8) < P25519) (hy : limbsVal (Q.val.drop 8) < P25519) :
    toAffine P = Except.ok (affOf P) ∧ toExtended (affOf P) = P ∧
    toAffine (toExtended Q) = Except.ok Q := by
  refine ⟨?_, toExtended_affOf P hZ hrel, ?_⟩
  · unfold toAffine
    rw [if_pos hZ]
  · have hz : (toExtended Q).Z = 1 := rfl
    unfold toAffine
    rw [if_pos hz, affOf_toExtended Q hw hx hy]

/-- Witness for C3 at the identity point and the identity buffer. -/
theorem conversions_round_trip_witness :
    toAffine edIdentity = Except.ok (affOf edIdentity) ∧
    toExtended (affOf edIdentity) = edIdentity ∧
    toAffine (toExtended IDENTITY) = Except.ok IDENTITY :=
  conversions_round_trip edIdentity rfl (by decide) IDENTITY (by decide) (by decide)
    (by decide)

/-- C3 counterexample: the buffer whose x-limbs encode the prime modulus
itself (a non-canonical encoding of 0) does not survive the round trip. -/
theorem conversions_round_trip_cex :
    toAffine (toExtended Qbad) ≠ Except.ok Qbad := by decide

/-- C4: converting an extended point into an affine buffer fails with a panic
(not a recoverable error value) exactly when Z is not the multiplicative
identity; on success the 16 words are the canonical little-endian packing of
the two coordinates, x in words 0–7 and y in words 8–15. -/
theorem to_affine_panic_iff (P : EdwardsPoint) :
    ((∃ m, toAffine P = Except.error (RustPanic.panicked m)) ↔ P.Z ≠ 1) ∧
    (P.Z = 1 → toAffine P = Except.ok (affOf P) ∧
      (affOf P).val = fieldToLimbs P.X ++ fieldToLimbs P.Y ∧
      (∀ i, i < 8 → (affOf P).val.getD i 0 = P.X.val / 2 ^ (32 * i) % 2 ^ 32) ∧
      (∀ i, i < 8 → (affOf P).val.getD (8 + i) 0 = P.Y.val / 2 ^ (32 * i) % 2 ^ 32)) := by
  constructor
  · constructor
    · rintro ⟨m, hm⟩ hZ
      unfold toAffine at hm
      rw [if_pos hZ] at hm
      exact absurd hm (by simp)
    · intro hZ
      refine ⟨"assertion failed: value.Z equals the multiplicative identity", ?_⟩
      unfold toAffine
      rw [if_neg hZ]
  · intro hZ
    refine ⟨by unfold toAffine; rw [if_pos hZ], rfl, ?_, ?_⟩
    · intro i hi
      have h1 : (affOf P).val.getD i 0 = (fieldToLimbs P.X).getD i 0 := by
        show (fieldToLimbs P.X ++ fieldToLimbs P.Y).getD i 0 = _
        rw [List.getD_eq_getElem?_getD, List.getD_eq_getElem?_getD,
          List.getElem?_append_left (by rw [fieldToLimbs_length]; exact hi)]
      rw [h1, fieldToLimbs_eq, List.getD_eq_getElem?_getD, List.getElem?_map,
        List.getElem?_range hi]
      rfl
    · intro i hi
      have hlen : (fieldToLimbs P.X).length = 8 := fieldToLimbs_length P.X
      have h1 : (affOf P).val.getD (8 + i) 0 = (fieldToLimbs P.Y).getD i 0 := by
        show (fieldToLimbs P.X ++ fieldToLimbs P.Y).getD (8 + i) 0 = _
        rw [List.getD_eq_getElem?_getD, List.getD_eq_getElem?_getD,
          List.getElem?_append_right (by rw [hlen]; omega), hlen,
          Nat.add_sub_cancel_left]
      rw [h1, fieldToLimbs_eq, List.getD_eq_getElem?_getD, List.getElem?_map,
        List.getElem?_range hi]
      rfl

/-- Witness for C4 at the extended identity. -/
theorem to_affine_panic_iff_witness :
    ((∃ m, toAffine edIdentity = Except.error (RustPanic.panicked m)) ↔
      edIdentity.Z ≠ 1) ∧
    (edIdentity.Z = 1 → toAffine edIdentity = Except.ok (affOf edIdentity) ∧
      (affOf edIdentity).val = fieldToLimbs edIdentity.X ++ fieldToLimbs edIdentity.Y ∧
      (∀ i, i < 8 →
        (affOf edIdentity).val.getD i 0 = edIdentity.X.val / 2 ^ (32 * i) % 2 ^ 32) ∧
      (∀ i, i < 8 →
        (affOf edIdentity).val.getD (8 + i) 0 =
          edIdentity.Y.val / 2 ^ (32 * i) % 2 ^ 32)) :=
  to_affine_panic_iff edIdentity

/-- C5: conversion to extended coordinates decodes the first and last eight
words, sets Z to the identity and T to X·Y, so the result is always
normalized and satisfies the extended-coordinate relation. -/
theorem to_extended_spec (v : AffinePoint) :
    (toExtended v).X = fieldFromLimbs (AffinePoint.x v) ∧
    (toExtended v).Y = fieldFromLimbs (AffinePoint.y v) ∧
    (AffinePoint.x v).val = v.val.take 8 ∧
    (AffinePoint.y v).val = v.val.drop 8 ∧
    (toExtended v).Z = 1 ∧
    (toExtended v).T = (toExtended v).X * (toExtended v).Y ∧
    (toExtended v).X * (toExtended v).Y = (toExtended v).Z * (toExtended v).T :=
  ⟨rfl, rfl, rfl, rfl, rfl, rfl, (one_mul _).symm⟩

/-- C6: both scalars' bit sequences have length 256, so the zipped lock-step
loop of the double-base algorithm drops no bit of either scalar. -/
theorem scalar_bits_equal_length (a b : ℕ) :
    (scalarBits a).length = (scalarBits b).length ∧
    (scalarBits a).length = 256 ∧
    ((scalarBits a).zip (scalarBits b)).length = 256 ∧
    ((scalarBits a).zip (scalarBits b)).map Prod.fst = scalarBits a ∧
    ((scalarBits a).zip (scalarBits b)).map Prod.snd = scalarBits b :=
  ⟨by simp [scalarBits_length], scalarBits_length a,
    by simp [List.length_zip, scalarBits_length],
    List.map_fst_zip _ _ (by simp [scalarBits_length]),
    List.map_snd_zip _ _ (by simp [scalarBits_length])⟩

/-- C7 (amended): every multiscalar invocation panics immediately and
unconditionally with the unsupported message, never returning a value. -/
theorem pippenger_unsupported (scalars : List ℕ)
    (points : List (Option EdwardsPoint)) :
    optional_multiscalar_mul scalars points =
      Except.error (RustPanic.panicked "Pippenger is not supported yet for zkvm") := rfl

/-- C7 counterexample: at the empty inputs the stub does not produce a
returned outcome of its Option result type — it aborts. -/
theorem pippenger_unsupported_cex :
    (optional_multiscalar_mul [] []).isOk = false := rfl

/-- C8: the identity constant has the fixed limb pattern x = 0, y = 1, and
converts to the extended group identity. -/
theorem identity_constant_spec :
    AffinePoint.identity = IDENTITY ∧
    IDENTITY.val = [0, 0, 0, 0, 0, 0, 0, 0, 1, 0, 0, 0, 0, 0, 0, 0] ∧
    fieldFromLimbs (AffinePoint.x IDENTITY) = 0 ∧
    fieldFromLimbs (AffinePoint.y IDENTITY) = 1 ∧
    toExtended IDENTITY = edIdentity :=
  ⟨rfl, rfl, by decide, by decide, toExtended_IDENTITY⟩

/-- C9: slice conversion fails with the typed, recoverable length error
exactly when the slice is not 8 words; on 8 words it copies them in order
with no other validation. -/
theorem try_from_slice_spec (value : List ℕ) :
    ((∃ e, tryFromSlice value = Except.error e) ↔ value.length ≠ 8) ∧
    ∀ h : value.length = 8, tryFromSlice value = Except.ok ⟨value, h⟩ := by
  constructor
  · constructor
    · rintro ⟨e, he⟩ hlen
      unfold tryFromSlice at he
      rw [dif_pos hlen] at he
      exact absurd he (by simp)
    · intro hlen
      refine ⟨TryFromSliceError.lengthMismatch, ?_⟩
      unfold tryFromSlice
      rw [dif_neg hlen]
  · intro h
    unfold tryFromSlice
    rw [dif_pos h]

/-- Witness for C9 at a concrete 8-word slice. -/
theorem try_from_slice_spec_witness :
    tryFromSlice [0, 1, 2, 3, 4, 5, 6, 7] =
      Except.ok ⟨[0, 1, 2, 3, 4, 5, 6, 7], by decide⟩ :=
  (try_from_slice_spec [0, 1, 2, 3, 4, 5, 6, 7]).2 (by decide)

/-- C10: for invertible Z, normalize sets Z to the identity, its X and Y
scale back to the originals on multiplying by Z (so it represents the same
affine point X/Z, Y/Z), and the extended-coordinate relation is preserved. -/
theorem normalize_spec (p : EdwardsPoint) (hu : IsUnit p.Z) :
    (normalize p).Z = 1 ∧
    (normalize p).X * p.Z = p.X ∧
    (normalize p).Y * p.Z = p.Y ∧
    (p.X * p.Y = p.Z * p.T →
      (normalize p).X * (normalize p).Y = (normalize p).Z * (normalize p).T) := by
  have hinv : p.Z * p.Z⁻¹ = 1 := ZMod.mul_inv_of_unit p.Z hu
  refine ⟨rfl, ?_, ?_, ?_⟩
  · show p.X * p.Z⁻¹ * p.Z = p.X
    calc p.X * p.Z⁻¹ * p.Z = p.X * (p.Z * p.Z⁻¹) := by ring
    _ = p.X := by rw [hinv, mul_one]
  · show p.Y * p.Z⁻¹ * p.Z = p.Y
    calc p.Y * p.Z⁻¹ * p.Z = p.Y * (p.Z * p.Z⁻¹) := by ring
    _ = p.Y := by rw [hinv, mul_one]
  · intro hrel
    show p.X * p.Z⁻¹ * (p.Y * p.Z⁻¹) = 1 * (p.T * p.Z⁻¹)
    calc p.X * p.Z⁻¹ * (p.Y * p.Z⁻¹) = p.X * p.Y * (p.Z⁻¹ * p.Z⁻¹) := by ring
    _ = p.Z * p.T * (p.Z⁻¹ * p.Z⁻¹) := by rw [hrel]
    _ = p.Z * p.Z⁻¹ * (p.T * p.Z⁻¹) := by ring
    _ = 1 * (p.T * p.Z⁻¹) := by rw [hinv]

/-- Witness for C10 at the extended identity, whose Z is a unit. -/
theorem normalize_spec_witness :
    (normalize edIdentity).Z = 1 ∧
    (normalize edIdentity).X * edIdentity.Z = edIdentity.X ∧
    (normalize edIdentity).Y * edIdentity.Z = edIdentity.Y ∧
    (edIdentity.X * edIdentity.Y = edIdentity.Z * edIdentity.T →
      (normalize edIdentity).X * (normalize edIdentity).Y =
        (normalize edIdentity).Z * (normalize edIdentity).T) :=
  normalize_spec edIdentity isUnit_one

end Zkvm
